import Mathlib

/-!
# Verification development for `ext/debug/debug.c`

A shallow embedding of the C extension of the Ruby debugger: the frame
capture (`capture_frames` / `di_body` / `di_entry`), the path filter
(`str_start_with`), the depth probe (`frame_depth`), the method-definition
hook (`method_added_tracker`) and `iseq_parameters_symbols`.

Host functions of the Ruby VM that the file calls but does not define
(`rb_enc_compatible`, the debug inspector accessors, `rb_make_backtrace`,
`rb_iseq_parameters`, ...) are inputs of the embedding.
-/

namespace Debug

/-! ## Host values -/

/-- One byte of a Ruby string buffer. -/
abbrev Byte := Fin 256

/-- A Ruby `String`: its byte buffer (`RSTRING_PTR`, `RSTRING_LEN`) and the
index of its encoding. -/
structure RString where
  bytes : List Byte
  enc : Nat
  deriving DecidableEq, Repr

/-- The macro `RSTRING_LEN`: the byte length of the buffer. -/
def RSTRING_LEN (s : RString) : Nat := s.bytes.length

/-- A Ruby `VALUE` as far as this file looks into it: `nil`, a `String`, a
`Symbol` (interned, so equal names are the same `VALUE`), or any other object,
identified by `id`, together with what its implicit `to_str` conversion gives
(`none` when it has no such conversion). -/
inductive Value where
  | nil
  | str (s : RString)
  | sym (name : String)
  | obj (id : Nat) (to_str : Option RString)
  deriving DecidableEq, Repr

/-- The macro `NIL_P`. -/
def NIL_P (v : Value) : Bool :=
  match v with
  | .nil => true
  | _ => false

/-- The exceptions the modelled code paths can raise. -/
inductive RubyError where
  /-- The `TypeError` raised by `StringValue` on an object with no implicit conversion -/
  | typeError
  /-- The `Encoding::CompatibilityError` raised by `rb_enc_check` -/
  | encCompatError
  /-- The `ArgumentError` ("no such frame") raised by the inspector accessors -/
  | argumentError
  deriving DecidableEq, Repr

/-- The macro `StringValue(v)`: a `String` is taken as it is, another object is
converted with its implicit `to_str`, and `TypeError` is raised when there is
no such conversion. -/
def StringValue (v : Value) : Except RubyError RString :=
  match v with
  | .str s => .ok s
  | .obj _ (some s) => .ok s
  | _ => .error .typeError

/-- The host function `rb_enc_check(str, pfx)`: raises
`Encoding::CompatibilityError` when the host's `rb_enc_compatible` (the
parameter `compat`) finds no common encoding. -/
def rb_enc_check (compat : RString → RString → Bool) (str pfx : RString) :
    Except RubyError Unit :=
  if compat str pfx then .ok () else .error .encCompatError

/-- The libc function `memcmp(p, q, n)`: the sign-carrying difference of the
first differing bytes among the first `n`, `0` when they are all equal. `none`
stands for a read past the end of a buffer (undefined in C); `str_start_with`
calls it only after its length test, with `n` bytes present in both. -/
def memcmp : List Byte → List Byte → Nat → Option Int
  | _, _, 0 => some 0
  | a :: p, b :: q, n + 1 =>
    if a = b then memcmp p q n else some ((a.val : Int) - (b.val : Int))
  | _, _, _ + 1 => none

/-! ## `str_start_with` (debug.c, lines 41-53) -/

/-- The function `str_start_with(str, prefix)`: `1` when `str` begins with the
bytes of the (converted) prefix, `0` otherwise; the conversion and the encoding
check come first and may raise. -/
def str_start_with (compat : RString → RString → Bool) (str : RString) (pfx : Value) :
    Except RubyError Int := do
  let pfx ← StringValue pfx
  rb_enc_check compat str pfx
  if RSTRING_LEN str ≥ RSTRING_LEN pfx &&
      memcmp str.bytes pfx.bytes (RSTRING_LEN pfx) == some 0 then
    return 1
  else
    return 0

/-! ## Frame capture (debug.c, lines 13-90) -/

/-- An instruction sequence wrapper: `id` identifies the object and
`realpath` is what the host's `rb_iseq_realpath` returns for it (`none` is
`nil`). -/
structure ISeq where
  id : Nat
  realpath : Option RString
  deriving DecidableEq, Repr

/-- The function `iseq_realpath(iseqw)`. -/
def iseq_realpath (iseqw : ISeq) : Option RString := iseqw.realpath

/-- What the debug inspector exposes for one raw frame: its backtrace
location, `self`, binding, instruction sequence (`none` is `nil`) and class. -/
structure RawFrame where
  loc : Value
  self : Value
  binding : Value
  iseq : Option ISeq
  klass : Value
  deriving DecidableEq, Repr

/-- The inspector handle `rb_debug_inspector_t *dc`: the frozen raw backtrace,
index 0 first. -/
abbrev Inspector := List RawFrame

/-- The host function `rb_debug_inspector_backtrace_locations(dc)`. -/
def rb_debug_inspector_backtrace_locations (dc : Inspector) : List Value :=
  dc.map (fun f => f.loc)

/-- The inspector's frame lookup: `ArgumentError` for an index outside the
backtrace. -/
def frame_get (dc : Inspector) (i : Nat) : Except RubyError RawFrame :=
  match dc[i]? with
  | some f => .ok f
  | none => .error .argumentError

/-- The host function `rb_debug_inspector_frame_iseq_get(dc, i)`. -/
def rb_debug_inspector_frame_iseq_get (dc : Inspector) (i : Nat) :
    Except RubyError (Option ISeq) :=
  (frame_get dc i).map (fun f => f.iseq)

/-- The host function `rb_debug_inspector_frame_self_get(dc, i)`. -/
def rb_debug_inspector_frame_self_get (dc : Inspector) (i : Nat) : Except RubyError Value :=
  (frame_get dc i).map (fun f => f.self)

/-- The host function `rb_debug_inspector_frame_binding_get(dc, i)`. -/
def rb_debug_inspector_frame_binding_get (dc : Inspector) (i : Nat) : Except RubyError Value :=
  (frame_get dc i).map (fun f => f.binding)

/-- The host function `rb_debug_inspector_frame_class_get(dc, i)`. -/
def rb_debug_inspector_frame_class_get (dc : Inspector) (i : Nat) : Except RubyError Value :=
  (frame_get dc i).map (fun f => f.klass)

/-- The `DEBUGGER__::FrameInfo` struct, member by member in the order
`rb_struct_new` fills them. -/
structure FrameInfo where
  location : Value
  self : Value
  binding : Value
  iseq : Option ISeq
  klass : Value
  frame_depth : Int
  has_return_value : Value
  return_value : Value
  has_raised_exception : Value
  raised_exception : Value
  show_line : Value
  _local_variables : Value
  _callee : Value
  dupped_binding : Value
  deriving DecidableEq, Repr

/-- The function `di_entry`: the six captured members, every other member `nil`. -/
def di_entry (loc self binding : Value) (iseq : Option ISeq) (klass : Value) (depth : Int) :
    FrameInfo :=
  { location := loc, self := self, binding := binding, iseq := iseq, klass := klass,
    frame_depth := depth,
    has_return_value := .nil, return_value := .nil,
    has_raised_exception := .nil, raised_exception := .nil,
    show_line := .nil,
    _local_variables := .nil, _callee := .nil,
    dupped_binding := .nil }

/-- The `for (i=...; i<len; i++)` loop of `di_body`, from index `i` on with
the array `ary` built so far. `continue` goes to the next index without a
push. The depth `INT2FIX(len - i)` is the plain difference: `0 < len - i` and
`len` is the length of a Ruby array, far below the Fixnum range. -/
def di_loop (compat : RString → RString → Bool) (dc : Inspector) (skip_path_pfx : Value)
    (locs : List Value) (len : Nat) (i : Nat) (ary : List FrameInfo) :
    Except RubyError (List FrameInfo) :=
  if i < len then do
    let iseq ← rb_debug_inspector_frame_iseq_get dc i
    let skip ← (match iseq with
      | some q =>
        match iseq_realpath q with
        | some path =>
          if !NIL_P skip_path_pfx then
            (str_start_with compat path skip_path_pfx).map (fun r => decide (r ≠ 0))
          else pure false
        | none => pure false
      | none => pure false : Except RubyError Bool)
    if skip then
      di_loop compat dc skip_path_pfx locs len (i + 1) ary
    else do
      let loc := locs.getD i .nil
      let e := di_entry loc
        (← rb_debug_inspector_frame_self_get dc i)
        (← rb_debug_inspector_frame_binding_get dc i)
        iseq
        (← rb_debug_inspector_frame_class_get dc i)
        ((len : Int) - (i : Int))
      di_loop compat dc skip_path_pfx locs len (i + 1) (ary ++ [e])
  else
    pure ary
termination_by len - i
decreasing_by all_goals omega

/-- The function `di_body(dc, ptr)`: the loop starts at raw index 1 with an
empty array. -/
def di_body (compat : RString → RString → Bool) (dc : Inspector) (skip_path_pfx : Value) :
    Except RubyError (List FrameInfo) :=
  let locs := rb_debug_inspector_backtrace_locations dc
  let len := locs.length
  di_loop compat dc skip_path_pfx locs len 1 []

/-- The function `capture_frames(self, skip_path_prefix)`:
`rb_debug_inspector_open` runs `di_body` on the inspector handle `dc` of the
calling thread and returns its result. -/
def capture_frames (compat : RString → RString → Bool) (dc : Inspector) (_self : Value)
    (skip_path_pfx : Value) : Except RubyError (List FrameInfo) :=
  di_body compat dc skip_path_pfx

/-! ## `frame_depth` (debug.c, lines 92-98) -/

/-- The function `frame_depth(self)`: the length of the array `bt` that the host's
`rb_make_backtrace()` returns at the moment of the call. -/
def frame_depth (bt : List Value) (_self : Value) : Int :=
  (bt.length : Int)

/-! ## `method_added_tracker` (debug.c, lines 100-113) -/

/-- A tracepoint event object `tpval`: `id` identifies the object and
`callee_id` is what `rb_tracearg_callee_id` returns for it. -/
structure TracePoint where
  id : Nat
  callee_id : Value
  deriving DecidableEq, Repr

/-- One `rb_funcallv` call: receiver, method name and arguments. -/
structure Funcall where
  recv : String
  mid : String
  args : List TracePoint
  deriving DecidableEq, Repr

/-- The host function `rb_funcallv(recv, rb_intern(mid), argc, args)`, recorded in the log of
the calls made so far. -/
def rb_funcallv (recv mid : String) (args : List TracePoint) (log : List Funcall) :
    List Funcall :=
  log ++ [{ recv := recv, mid := mid, args := args }]

/-- The function `method_added_tracker(tpval, ptr)`: forwards the event to
`DEBUGGER__.method_added` when the callee id is one of the two symbols. -/
def method_added_tracker (tpval : TracePoint) (log : List Funcall) : List Funcall :=
  let mid := tpval.callee_id
  if mid = Value.sym "method_added" ∨ mid = Value.sym "singleton_method_added" then
    rb_funcallv "DEBUGGER__" "method_added" [tpval] log
  else
    log

/-- The enabled tracepoint run on a sequence of call events, in order. -/
def run_tracker (events : List TracePoint) (log : List Funcall) : List Funcall :=
  events.foldl (fun l tp => method_added_tracker tp l) log

/-! ## `iseq_parameters_symbols` (debug.c, lines 139-165) -/

/-- The symbol `ID2SYM(rb_intern("*"))`, cached in the static `sym_ast`. -/
def sym_ast : Value := .sym "*"

/-- The symbol `ID2SYM(rb_intern("**"))`, cached in the static `sym_astast`. -/
def sym_astast : Value := .sym "**"

/-- The symbol `ID2SYM(rb_intern("&"))`, cached in the static `sym_amp`. -/
def sym_amp : Value := .sym "&"

/-- The `for (long i=...; i<RARRAY_LEN(params); i++)` loop of
`iseq_parameters_symbols`, from index `i` on with the array `ary` built so
far. -/
def params_loop (params : List (List Value)) (i : Nat) (ary : List Value) : List Value :=
  if i < params.length then
    let e := params.getD i []
    if e.length = 2 then
      let sym := e.getD 1 .nil
      if sym ≠ sym_ast ∧ sym ≠ sym_astast ∧ sym ≠ sym_amp then
        params_loop params (i + 1) (ary ++ [e.getD 1 .nil])
      else
        params_loop params (i + 1) ary
    else
      params_loop params (i + 1) ary
  else
    ary
termination_by params.length - i
decreasing_by all_goals omega

/-- The function `iseq_parameters_symbols(iseqw)`, on the array `params` that the host's
`rb_iseq_parameters(iseq, 0)` returns for the instruction sequence. -/
def iseq_parameters_symbols (params : List (List Value)) : List Value :=
  params_loop params 0 []

/-! ## Reading the capture loop off the list of frames -/

deriving instance DecidableEq for Except

/-- The record `di_body` builds for raw frame `f` at raw index `i` of a
backtrace of `len` frames. -/
def entry_at (len i : Nat) (f : RawFrame) : FrameInfo :=
  di_entry f.loc f.self f.binding f.iseq f.klass ((len : Int) - (i : Int))

/-- The skip test of one loop iteration of `di_body`, as a function of the
raw frame it looks at. -/
def skip_test (compat : RString → RString → Bool) (skip_path_pfx : Value) (f : RawFrame) :
    Except RubyError Bool :=
  match f.iseq with
  | some q =>
    match iseq_realpath q with
    | some path =>
      if !NIL_P skip_path_pfx then
        (str_start_with compat path skip_path_pfx).map (fun r => decide (r ≠ 0))
      else pure false
    | none => pure false
  | none => pure false

/-- The loop of `di_body` as a structural recursion over the frames still to
visit, `i` being the raw index of the first of them. -/
def walk (compat : RString → RString → Bool) (skip_path_pfx : Value) (len : Nat) :
    Nat → List RawFrame → List FrameInfo → Except RubyError (List FrameInfo)
  | _, [], ary => .ok ary
  | i, f :: fs, ary =>
    match skip_test compat skip_path_pfx f with
    | .error e => .error e
    | .ok true => walk compat skip_path_pfx len (i + 1) fs ary
    | .ok false => walk compat skip_path_pfx len (i + 1) fs (ary ++ [entry_at len i f])

/-- The real path of the code unit of a raw frame, when it has both. -/
def frame_path (f : RawFrame) : Option RString :=
  match f.iseq with
  | some q => q.realpath
  | none => none

/-- The exclusion rule in the words of the specification: the frame has a
code unit, the unit has a real path, and the path starts with the bytes of
`s`. -/
def excluded_by (s : RString) (f : RawFrame) : Bool :=
  match frame_path f with
  | some p => s.bytes.isPrefixOf p.bytes
  | none => false

/-- The raw frames of index 1 and later, each with its raw index. -/
def candidates (dc : Inspector) : List (Nat × RawFrame) :=
  (dc.drop 1).enumFrom 1

/-! ## Concrete inputs -/

/-- The bytes of an ASCII string literal. -/
def bytesOf (s : String) : List Byte :=
  s.toList.map (fun c => Fin.ofNat c.toNat)

/-- An encoding check that accepts two strings of the same encoding index. -/
def sameEnc (a b : RString) : Bool := a.enc == b.enc

/-- A raw frame numbered `n` whose code unit, when `path` is given, has that
real path (encoding index 0). -/
def mkFrame (n : Nat) (path : Option String) : RawFrame :=
  { loc := .obj n none, self := .obj (100 + n) none, binding := .obj (200 + n) none,
    iseq := path.map (fun s => { id := n, realpath := some ⟨bytesOf s, 0⟩ }),
    klass := .obj (300 + n) none }

/-- The scenario of the specification: the entry-point frame, then `A`, `B`
and `C`. -/
def scenario : Inspector :=
  [mkFrame 0 none, mkFrame 1 (some "internal/debugger.lib"), mkFrame 2 (some "/app/main"),
   mkFrame 3 (some "/app/util")]

/-- Ten call events, of which the ones numbered 3 and 7 are `method_added`. -/
def ten_events : List TracePoint :=
  [⟨0, .sym "foo"⟩, ⟨1, .sym "bar"⟩, ⟨2, .nil⟩, ⟨3, .sym "method_added"⟩,
   ⟨4, .sym "initialize_copy"⟩, ⟨5, .sym "to_s"⟩, ⟨6, .sym "inspect"⟩,
   ⟨7, .sym "method_added"⟩, ⟨8, .sym "method_removed"⟩, ⟨9, .sym "each"⟩]

/-! ## The loop of `di_body` and its reading as `walk` -/

theorem di_loop_done (compat : RString → RString → Bool) (dc : Inspector) (pfx : Value)
    (locs : List Value) (len i : Nat) (ary : List FrameInfo) (h : ¬ i < len) :
    di_loop compat dc pfx locs len i ary = .ok ary := by
  rw [di_loop, if_neg h]; rfl

theorem di_loop_step (compat : RString → RString → Bool) (dc : Inspector) (pfx : Value)
    (i : Nat) (ary : List FrameInfo) (f : RawFrame) (hf : dc[i]? = some f) :
    di_loop compat dc pfx (rb_debug_inspector_backtrace_locations dc)
        (rb_debug_inspector_backtrace_locations dc).length i ary =
      match skip_test compat pfx f with
      | .error e => .error e
      | .ok true => di_loop compat dc pfx (rb_debug_inspector_backtrace_locations dc)
          (rb_debug_inspector_backtrace_locations dc).length (i + 1) ary
      | .ok false => di_loop compat dc pfx (rb_debug_inspector_backtrace_locations dc)
          (rb_debug_inspector_backtrace_locations dc).length (i + 1)
          (ary ++ [entry_at (rb_debug_inspector_backtrace_locations dc).length i f]) := by
  have hi : i < dc.length := by
    rcases List.getElem?_eq_some_iff.mp hf with ⟨h, _⟩; exact h
  have hlen : (rb_debug_inspector_backtrace_locations dc).length = dc.length := by
    simp [rb_debug_inspector_backtrace_locations]
  have hloc : (rb_debug_inspector_backtrace_locations dc).getD i .nil = f.loc := by
    simp [rb_debug_inspector_backtrace_locations, List.getD, hf]
  rw [di_loop, if_pos (by omega)]
  simp only [rb_debug_inspector_frame_iseq_get, rb_debug_inspector_frame_self_get,
    rb_debug_inspector_frame_binding_get, rb_debug_inspector_frame_class_get, frame_get, hf, hloc]
  show (skip_test compat pfx f >>= fun skip => _) = _
  cases skip_test compat pfx f with
  | error e => rfl
  | ok b => cases b <;> rfl

theorem locs_length (dc : Inspector) :
    (rb_debug_inspector_backtrace_locations dc).length = dc.length := by
  simp [rb_debug_inspector_backtrace_locations]

theorem di_loop_eq_walk (compat : RString → RString → Bool) (dc : Inspector) (pfx : Value) :
    ∀ (n i : Nat) (ary : List FrameInfo), dc.length - i = n →
      di_loop compat dc pfx (rb_debug_inspector_backtrace_locations dc)
          (rb_debug_inspector_backtrace_locations dc).length i ary =
        walk compat pfx dc.length i (dc.drop i) ary := by
  intro n
  induction n with
  | zero =>
    intro i ary h
    have hi : dc.length ≤ i := by omega
    rw [di_loop_done _ _ _ _ _ _ _ (by rw [locs_length]; omega), List.drop_eq_nil_of_le hi]
    rfl
  | succ n ih =>
    intro i ary h
    have hi : i < dc.length := by omega
    have hf : dc[i]? = some dc[i] := List.getElem?_eq_getElem hi
    rw [di_loop_step compat dc pfx i ary dc[i] hf, List.drop_eq_getElem_cons hi]
    simp only [walk]
    rw [ih (i + 1) ary (by omega), ih (i + 1) _ (by omega), locs_length]

theorem di_body_eq_walk (compat : RString → RString → Bool) (dc : Inspector) (pfx : Value) :
    di_body compat dc pfx = walk compat pfx dc.length 1 (dc.drop 1) [] := by
  unfold di_body
  exact di_loop_eq_walk compat dc pfx (dc.length - 1) 1 [] rfl

/-! ## `str_start_with` -/

theorem memcmp_eq_zero_iff : ∀ (p q : List Byte) (n : Nat), n ≤ p.length → n ≤ q.length →
    (memcmp p q n = some 0 ↔ p.take n = q.take n)
  | _, _, 0, _, _ => by simp [memcmp]
  | [], _, n + 1, hp, _ => by simp at hp
  | _ :: _, [], n + 1, _, hq => by simp at hq
  | a :: p, b :: q, n + 1, hp, hq => by
    have ih := memcmp_eq_zero_iff p q n (by simpa using hp) (by simpa using hq)
    by_cases hab : a = b
    · simp [memcmp, hab, ih]
    · have hv : (a.val : Int) - (b.val : Int) ≠ 0 := by
        intro h
        apply hab
        apply Fin.ext
        omega
      simp [memcmp, hab, hv]

theorem take_eq_iff_isPrefix (s l : List Byte) :
    (s.length ≤ l.length ∧ l.take s.length = s) ↔ s <+: l := by
  constructor
  · rintro ⟨_, h⟩
    rw [List.prefix_iff_eq_take]
    exact h.symm
  · intro h
    exact ⟨h.length_le, (List.prefix_iff_eq_take.mp h).symm⟩

theorem str_start_with_of_compat (compat : RString → RString → Bool) (str s : RString)
    (pfx : Value) (hs : StringValue pfx = .ok s) (hc : compat str s = true) :
    str_start_with compat str pfx = .ok (if s.bytes <+: str.bytes then 1 else 0) := by
  unfold str_start_with
  rw [hs]
  simp only [bind, Except.bind, rb_enc_check, hc, if_true, pure, Except.pure]
  by_cases hl : RSTRING_LEN s ≤ RSTRING_LEN str
  · have hm := memcmp_eq_zero_iff str.bytes s.bytes (RSTRING_LEN s) hl (le_refl _)
    have hp := take_eq_iff_isPrefix s.bytes str.bytes
    simp only [RSTRING_LEN] at hl hm hp ⊢
    by_cases hpre : s.bytes <+: str.bytes
    · have h1 : memcmp str.bytes s.bytes s.bytes.length = some 0 := by
        rw [hm, List.take_length]; exact (hp.mpr hpre).2
      simp [hl, h1, hpre]
    · have h1 : memcmp str.bytes s.bytes s.bytes.length ≠ some 0 := by
        intro h
        rw [hm, List.take_length] at h
        exact hpre (hp.mp ⟨hl, h⟩)
      simp [hl, h1, hpre]
  · have hpre : ¬ s.bytes <+: str.bytes := fun h => hl h.length_le
    simp [hl, hpre]

theorem str_start_with_of_incompat (compat : RString → RString → Bool) (str s : RString)
    (pfx : Value) (hs : StringValue pfx = .ok s) (hc : compat str s = false) :
    str_start_with compat str pfx = .error .encCompatError := by
  unfold str_start_with
  rw [hs]
  simp [bind, Except.bind, rb_enc_check, hc]

/-! ## The skip test -/

theorem NIL_P_of_StringValue (pfx : Value) (s : RString) (hs : StringValue pfx = .ok s) :
    NIL_P pfx = false := by
  cases pfx <;> simp [StringValue, NIL_P] at hs ⊢

theorem skip_test_nil (compat : RString → RString → Bool) (f : RawFrame) :
    skip_test compat .nil f = .ok false := by
  obtain ⟨loc, self, binding, iseq, klass⟩ := f
  cases iseq with
  | none => rfl
  | some q =>
    obtain ⟨id, realpath⟩ := q
    cases realpath <;> rfl

theorem skip_test_no_path (compat : RString → RString → Bool) (pfx : Value) (f : RawFrame)
    (h : frame_path f = none) : skip_test compat pfx f = .ok false := by
  obtain ⟨loc, self, binding, iseq, klass⟩ := f
  cases iseq with
  | none => rfl
  | some q =>
    obtain ⟨id, realpath⟩ := q
    cases realpath with
    | none => rfl
    | some p => simp [frame_path] at h

theorem skip_test_path (compat : RString → RString → Bool) (pfx : Value) (s : RString)
    (f : RawFrame) (p : RString) (hs : StringValue pfx = .ok s) (h : frame_path f = some p) :
    skip_test compat pfx f = (str_start_with compat p pfx).map (fun r => decide (r ≠ 0)) := by
  obtain ⟨loc, self, binding, iseq, klass⟩ := f
  cases iseq with
  | none => simp [frame_path] at h
  | some q =>
    obtain ⟨id, realpath⟩ := q
    cases realpath with
    | none => simp [frame_path] at h
    | some p' =>
      simp only [frame_path, Option.some.injEq] at h
      subst h
      simp only [skip_test, iseq_realpath, NIL_P_of_StringValue pfx s hs]
      rfl

theorem skip_test_of_compat (compat : RString → RString → Bool) (pfx : Value) (s : RString)
    (f : RawFrame) (hs : StringValue pfx = .ok s)
    (hc : ∀ p, frame_path f = some p → compat p s = true) :
    skip_test compat pfx f = .ok (excluded_by s f) := by
  cases hp : frame_path f with
  | none => rw [skip_test_no_path compat pfx f hp]; simp [excluded_by, hp]
  | some p =>
    rw [skip_test_path compat pfx s f p hs hp, str_start_with_of_compat compat p s pfx hs (hc p hp)]
    by_cases hpre : s.bytes <+: p.bytes
    · have : s.bytes.isPrefixOf p.bytes = true := List.isPrefixOf_iff_prefix.mpr hpre
      simp [excluded_by, hp, hpre, this, Except.map]
    · have : s.bytes.isPrefixOf p.bytes = false := by
        rw [Bool.eq_false_iff]; intro h; exact hpre (List.isPrefixOf_iff_prefix.mp h)
      simp [excluded_by, hp, hpre, this, Except.map]

theorem skip_test_of_incompat (compat : RString → RString → Bool) (pfx : Value) (s : RString)
    (f : RawFrame) (p : RString) (hs : StringValue pfx = .ok s) (hp : frame_path f = some p)
    (hc : compat p s = false) :
    skip_test compat pfx f = .error .encCompatError := by
  rw [skip_test_path compat pfx s f p hs hp, str_start_with_of_incompat compat p s pfx hs hc]
  rfl

theorem skip_test_error_iff (compat : RString → RString → Bool) (pfx : Value) (s : RString)
    (f : RawFrame) (hs : StringValue pfx = .ok s) (e : RubyError) :
    skip_test compat pfx f = .error e ↔
      e = .encCompatError ∧ ∃ p, frame_path f = some p ∧ compat p s = false := by
  cases hp : frame_path f with
  | none => rw [skip_test_no_path compat pfx f hp]; simp
  | some p =>
    cases hc : compat p s with
    | true =>
      rw [skip_test_of_compat compat pfx s f hs
        (by intro p' hp'; rw [hp] at hp'; cases hp'; exact hc)]
      simp [hc]
    | false =>
      rw [skip_test_of_incompat compat pfx s f p hs hp hc]
      constructor
      · intro h
        cases h
        exact ⟨rfl, p, rfl, hc⟩
      · rintro ⟨rfl, _⟩
        rfl

/-! ## `walk` -/

theorem walk_of_forall (compat : RString → RString → Bool) (pfx : Value) (len : Nat)
    (ex : RawFrame → Bool) :
    ∀ (fs : List RawFrame) (i : Nat) (ary : List FrameInfo),
      (∀ f ∈ fs, skip_test compat pfx f = .ok (ex f)) →
      walk compat pfx len i fs ary =
        .ok (ary ++ ((fs.enumFrom i).filter (fun p => !ex p.2)).map
          (fun p => entry_at len p.1 p.2))
  | [], i, ary, _ => by simp [walk]
  | f :: fs, i, ary, h => by
    have hf := h f (List.mem_cons_self _ _)
    have ih := fun ary => walk_of_forall compat pfx len ex fs (i + 1) ary
      (fun g hg => h g (List.mem_cons_of_mem _ hg))
    cases hx : ex f with
    | true =>
      rw [hx] at hf
      simp only [walk, hf, ih, List.enumFrom_cons]
      simp [List.filter_cons, hx]
    | false =>
      rw [hx] at hf
      simp only [walk, hf, ih, List.enumFrom_cons]
      simp [List.filter_cons, hx]

theorem walk_error_mem (compat : RString → RString → Bool) (pfx : Value) (len : Nat)
    (e : RubyError) :
    ∀ (fs : List RawFrame) (i : Nat) (ary : List FrameInfo),
      walk compat pfx len i fs ary = .error e → ∃ f ∈ fs, skip_test compat pfx f = .error e
  | [], i, ary, h => by simp [walk] at h
  | f :: fs, i, ary, h => by
    cases hf : skip_test compat pfx f with
    | error e' =>
      simp only [walk, hf] at h
      cases h
      exact ⟨f, List.mem_cons_self _ _, hf⟩
    | ok b =>
      cases b with
      | true =>
        simp only [walk, hf] at h
        obtain ⟨g, hg, hge⟩ := walk_error_mem compat pfx len e fs _ _ h
        exact ⟨g, List.mem_cons_of_mem _ hg, hge⟩
      | false =>
        simp only [walk, hf] at h
        obtain ⟨g, hg, hge⟩ := walk_error_mem compat pfx len e fs _ _ h
        exact ⟨g, List.mem_cons_of_mem _ hg, hge⟩

theorem walk_ok_all (compat : RString → RString → Bool) (pfx : Value) (len : Nat) :
    ∀ (fs : List RawFrame) (i : Nat) (ary r : List FrameInfo),
      walk compat pfx len i fs ary = .ok r → ∀ f ∈ fs, ∃ b, skip_test compat pfx f = .ok b
  | [], i, ary, r, _ => by simp
  | f :: fs, i, ary, r, h => by
    cases hf : skip_test compat pfx f with
    | error e' => simp [walk, hf] at h
    | ok b =>
      have ih : ∀ g ∈ fs, ∃ b, skip_test compat pfx g = .ok b := by
        cases b with
        | true =>
          simp only [walk, hf] at h
          exact walk_ok_all compat pfx len fs _ _ r h
        | false =>
          simp only [walk, hf] at h
          exact walk_ok_all compat pfx len fs _ _ r h
      intro g hg
      rcases List.mem_cons.mp hg with rfl | hg
      · exact ⟨b, hf⟩
      · exact ih g hg

theorem walk_sublist (compat : RString → RString → Bool) (pfx : Value) (len : Nat) :
    ∀ (fs : List RawFrame) (i : Nat) (ary r : List FrameInfo),
      walk compat pfx len i fs ary = .ok r →
      ∃ l : List (Nat × RawFrame), l.Sublist (fs.enumFrom i) ∧
        r = ary ++ l.map (fun p => entry_at len p.1 p.2)
  | [], i, ary, r, h => by
    simp only [walk] at h
    cases h
    exact ⟨[], by simp, by simp⟩
  | f :: fs, i, ary, r, h => by
    cases hf : skip_test compat pfx f with
    | error e' => simp [walk, hf] at h
    | ok b =>
      cases b with
      | true =>
        simp only [walk, hf] at h
        obtain ⟨l, hl, hr⟩ := walk_sublist compat pfx len fs _ _ r h
        refine ⟨l, ?_, hr⟩
        simp only [List.enumFrom_cons]
        exact List.Sublist.cons _ hl
      | false =>
        simp only [walk, hf] at h
        obtain ⟨l, hl, hr⟩ := walk_sublist compat pfx len fs _ _ r h
        refine ⟨(i, f) :: l, ?_, by simp [hr]⟩
        simp only [List.enumFrom_cons]
        exact List.Sublist.cons₂ _ hl

/-! ## The candidate frames -/

theorem candidates_length (dc : Inspector) : (candidates dc).length = dc.length - 1 := by
  simp [candidates]

theorem candidates_getElem? (dc : Inspector) (k : Nat) :
    (candidates dc)[k]? = (dc[k + 1]?).map (fun f => (k + 1, f)) := by
  simp [candidates, List.getElem?_enumFrom, Nat.add_comm]

theorem mem_candidates (dc : Inspector) (i : Nat) (f : RawFrame) :
    (i, f) ∈ candidates dc ↔ 1 ≤ i ∧ dc[i]? = some f := by
  unfold candidates
  rw [List.mk_mem_enumFrom_iff_le_and_getElem?_sub, List.getElem?_drop]
  constructor
  · rintro ⟨h1, h2⟩
    refine ⟨h1, ?_⟩
    rw [← h2]; congr 1; omega
  · rintro ⟨h1, h2⟩
    refine ⟨h1, ?_⟩
    rw [← h2]; congr 1; omega

theorem candidates_pairwise (dc : Inspector) :
    (candidates dc).Pairwise (fun a b => a.1 < b.1) := by
  unfold candidates
  generalize dc.drop 1 = l
  generalize 1 = n
  induction l generalizing n with
  | nil => simp
  | cons a l ih =>
    rw [List.enumFrom_cons, List.pairwise_cons]
    refine ⟨?_, ih (n + 1)⟩
    intro p hp
    have := List.le_fst_of_mem_enumFrom hp
    show n < p.1
    omega

theorem candidates_bounds (dc : Inspector) (c : Nat × RawFrame) (h : c ∈ candidates dc) :
    1 ≤ c.1 ∧ c.1 < dc.length := by
  obtain ⟨i, f⟩ := c
  rw [mem_candidates] at h
  exact ⟨h.1, (List.getElem?_eq_some_iff.mp h.2).1⟩

/-! ## `di_body` in closed form -/

theorem di_body_nil (compat : RString → RString → Bool) (dc : Inspector) :
    di_body compat dc .nil =
      .ok ((candidates dc).map (fun c => entry_at dc.length c.1 c.2)) := by
  rw [di_body_eq_walk,
    walk_of_forall compat .nil dc.length (fun _ => false) (dc.drop 1) 1 []
      (fun f _ => skip_test_nil compat f)]
  simp [candidates]

theorem di_body_of_compat (compat : RString → RString → Bool) (dc : Inspector) (pfx : Value)
    (s : RString) (hs : StringValue pfx = .ok s)
    (hc : ∀ f ∈ dc.drop 1, ∀ p, frame_path f = some p → compat p s = true) :
    di_body compat dc pfx =
      .ok (((candidates dc).filter (fun c => !excluded_by s c.2)).map
        (fun c => entry_at dc.length c.1 c.2)) := by
  rw [di_body_eq_walk,
    walk_of_forall compat pfx dc.length (excluded_by s) (dc.drop 1) 1 []
      (fun f hf => skip_test_of_compat compat pfx s f hs (hc f hf))]
  simp [candidates]

theorem frame_path_eq_some (f : RawFrame) (p : RString) :
    frame_path f = some p ↔ ∃ q, f.iseq = some q ∧ q.realpath = some p := by
  obtain ⟨loc, self, binding, iseq, klass⟩ := f
  cases iseq <;> simp [frame_path]

theorem excluded_by_iff (s : RString) (f : RawFrame) :
    excluded_by s f = true ↔
      ∃ q p, f.iseq = some q ∧ q.realpath = some p ∧ s.bytes <+: p.bytes := by
  unfold excluded_by
  cases hp : frame_path f with
  | none =>
    simp only [Bool.false_eq_true, false_iff]
    rintro ⟨q, p, hq, hqp, _⟩
    have := (frame_path_eq_some f p).mpr ⟨q, hq, hqp⟩
    rw [hp] at this
    cases this
  | some p =>
    obtain ⟨q, hq, hqp⟩ := (frame_path_eq_some f p).mp hp
    simp only [List.isPrefixOf_iff_prefix]
    constructor
    · intro h
      exact ⟨q, p, hq, hqp, h⟩
    · rintro ⟨q', p', hq', hqp', h⟩
      rw [hq] at hq'
      cases hq'
      rw [hqp] at hqp'
      cases hqp'
      exact h

/-! ## The scenario -/

theorem scenario_sameEnc (b : List Byte) :
    ∀ f ∈ scenario, ∀ q p, f.iseq = some q → q.realpath = some p →
      sameEnc p ⟨b, 0⟩ = true := by
  intro f hf q p hq hqp
  simp only [scenario, List.mem_cons, List.mem_singleton, List.not_mem_nil, or_false] at hf
  rcases hf with rfl | rfl | rfl | rfl <;>
    simp only [mkFrame, Option.map_none', Option.map_some', Option.some.injEq] at hq <;>
    cases hq <;> cases hqp <;> rfl

/-! ## Claims about `capture_frames` -/

/-- C1: with a `nil` exclusion prefix `capture_frames` returns exactly `N - 1`
records for a raw backtrace of `N` frames; the record at result index `k` is
built from raw frame `k + 1`: its location, self, binding, code unit and class
are, member by member, those of raw frame `k + 1`, its depth is `N - 1 - k`
and its other members are `nil`; conversely every record of the result is at
some index `k` the record of raw frame `k + 1`, so raw index 0 never appears;
the depths are `N - 1, N - 2, ..., 1`, strictly decreasing, and the result is
empty when `N = 1`. -/
theorem capture_frames_unfiltered (compat : RString → RString → Bool) (dc : Inspector)
    (self : Value) :
    ∃ r : List FrameInfo,
      capture_frames compat dc self .nil = .ok r ∧
      r.length = dc.length - 1 ∧
      (∀ (k : Nat) (f : RawFrame), dc[k + 1]? = some f →
        r[k]? = some (di_entry f.loc f.self f.binding f.iseq f.klass
          ((dc.length : Int) - 1 - (k : Int)))) ∧
      (∀ (k : Nat) (f : RawFrame), dc[k + 1]? = some f →
        ∃ e : FrameInfo, r[k]? = some e ∧
          e.location = f.loc ∧ e.self = f.self ∧ e.binding = f.binding ∧
          e.iseq = f.iseq ∧ e.klass = f.klass ∧
          e.frame_depth = (dc.length : Int) - 1 - (k : Int) ∧
          e.has_return_value = .nil ∧ e.return_value = .nil ∧
          e.has_raised_exception = .nil ∧ e.raised_exception = .nil ∧
          e.show_line = .nil ∧ e._local_variables = .nil ∧ e._callee = .nil ∧
          e.dupped_binding = .nil) ∧
      (∀ (k : Nat) (e : FrameInfo), r[k]? = some e →
        ∃ f : RawFrame, dc[k + 1]? = some f ∧
          e.location = f.loc ∧ e.self = f.self ∧ e.binding = f.binding ∧
          e.iseq = f.iseq ∧ e.klass = f.klass) ∧
      r.map (fun e => e.frame_depth) =
        (List.range (dc.length - 1)).map (fun k : Nat => (dc.length : Int) - 1 - (k : Int)) ∧
      r.Pairwise (fun a b => a.frame_depth > b.frame_depth) ∧
      (dc.length = 1 → r = []) := by
  have hget : ∀ (k : Nat) (f : RawFrame), dc[k + 1]? = some f →
      ((candidates dc).map (fun c => entry_at dc.length c.1 c.2))[k]? =
        some (di_entry f.loc f.self f.binding f.iseq f.klass
          ((dc.length : Int) - 1 - (k : Int))) := by
    intro k f hf
    rw [List.getElem?_map, candidates_getElem?, hf]
    simp only [Option.map_some', entry_at, Nat.cast_add, Nat.cast_one]
    congr 2
    ring
  refine ⟨_, di_body_nil compat dc, ?_, hget, ?_, ?_, ?_, ?_, ?_⟩
  · simp [candidates_length]
  · intro k f hf
    exact ⟨_, hget k f hf, rfl, rfl, rfl, rfl, rfl, rfl, rfl, rfl, rfl, rfl, rfl, rfl, rfl, rfl⟩
  · intro k e he
    have hk : k < ((candidates dc).map (fun c => entry_at dc.length c.1 c.2)).length :=
      (List.getElem?_eq_some_iff.mp he).1
    rw [List.length_map, candidates_length] at hk
    have h1 : k + 1 < dc.length := by omega
    have hf : dc[k + 1]? = some dc[k + 1] := List.getElem?_eq_getElem h1
    rw [hget k _ hf] at he
    cases he
    exact ⟨_, hf, rfl, rfl, rfl, rfl, rfl⟩
  · apply List.ext_getElem?
    intro k
    simp only [List.getElem?_map, candidates_getElem?, Option.map_map]
    by_cases hk : k < dc.length - 1
    · have h1 : k + 1 < dc.length := by omega
      rw [List.getElem?_eq_getElem h1, List.getElem?_range hk]
      simp only [Option.map_some', Function.comp, entry_at, di_entry, Nat.cast_add, Nat.cast_one]
      congr 1
      ring
    · have h1 : dc.length ≤ k + 1 := by omega
      have h2 : (List.range (dc.length - 1)).length ≤ k := by simp; omega
      rw [List.getElem?_eq_none h1, List.getElem?_eq_none h2]
      rfl
  · rw [List.pairwise_map]
    refine (candidates_pairwise dc).imp ?_
    intro a b hab
    simp only [entry_at, di_entry, gt_iff_lt]
    omega
  · intro h1
    apply List.eq_nil_of_length_eq_zero
    simp [candidates_length, h1]

/-- C2: for an exclusion prefix that converts to the string `s` and is
encoding-compatible with every frame path, `capture_frames` returns, in raw
order, the records of exactly the raw frames of index at least 1 that are not
(code unit present, real path present, real path starting with `s`); no
returned record has a code unit whose real path starts with `s`, and a frame
with no code unit, or whose code unit has no real path, is never left out. -/
theorem capture_frames_filter (compat : RString → RString → Bool) (dc : Inspector)
    (self pfx : Value) (s : RString) (hs : StringValue pfx = .ok s)
    (hc : ∀ f ∈ dc, ∀ q p, f.iseq = some q → q.realpath = some p → compat p s = true) :
    ∃ r : List FrameInfo,
      capture_frames compat dc self pfx = .ok r ∧
      r = ((candidates dc).filter (fun c => !excluded_by s c.2)).map
        (fun c => di_entry c.2.loc c.2.self c.2.binding c.2.iseq c.2.klass
          ((dc.length : Int) - (c.1 : Int))) ∧
      (∀ i f, (i, f) ∈ candidates dc ↔ 1 ≤ i ∧ dc[i]? = some f) ∧
      (∀ f, excluded_by s f = true ↔
        ∃ q p, f.iseq = some q ∧ q.realpath = some p ∧ s.bytes <+: p.bytes) ∧
      (∀ e ∈ r, ∀ q p, e.iseq = some q → q.realpath = some p → ¬ s.bytes <+: p.bytes) ∧
      (∀ (i : Nat) (f : RawFrame), 1 ≤ i → dc[i]? = some f →
        (f.iseq = none ∨ ∃ q, f.iseq = some q ∧ q.realpath = none) →
        di_entry f.loc f.self f.binding f.iseq f.klass ((dc.length : Int) - (i : Int)) ∈ r) := by
  have hc' : ∀ f ∈ dc.drop 1, ∀ p, frame_path f = some p → compat p s = true := by
    intro f hf p hp
    obtain ⟨q, hq, hqp⟩ := (frame_path_eq_some f p).mp hp
    exact hc f (List.mem_of_mem_drop hf) q p hq hqp
  refine ⟨_, di_body_of_compat compat dc pfx s hs hc', rfl, mem_candidates dc,
    excluded_by_iff s, ?_, ?_⟩
  · intro e he q p hq hqp hpre
    rw [List.mem_map] at he
    obtain ⟨c, hcm, rfl⟩ := he
    rw [List.mem_filter] at hcm
    have hex : excluded_by s c.2 = true := (excluded_by_iff s c.2).mpr ⟨q, p, hq, hqp, hpre⟩
    simp [hex] at hcm
  · intro i f hi hf hno
    rw [List.mem_map]
    refine ⟨(i, f), ?_, rfl⟩
    rw [List.mem_filter]
    refine ⟨(mem_candidates dc i f).mpr ⟨hi, hf⟩, ?_⟩
    have hex : excluded_by s f = false := by
      rw [Bool.eq_false_iff]
      intro h
      obtain ⟨q, p, hq, hqp, _⟩ := (excluded_by_iff s f).mp h
      rcases hno with h0 | ⟨q', hq', hn⟩
      · rw [h0] at hq; cases hq
      · rw [hq] at hq'; cases hq'; rw [hqp] at hn; cases hn
    simp [hex]

/-- Witness of C2: the scenario with the prefix `"internal/"`. -/
theorem capture_frames_filter_witness :
    StringValue (.str ⟨bytesOf "internal/", 0⟩) = .ok ⟨bytesOf "internal/", 0⟩ ∧
    ∃ r : List FrameInfo,
      capture_frames sameEnc scenario .nil (.str ⟨bytesOf "internal/", 0⟩) = .ok r ∧
      r = ((candidates scenario).filter
          (fun c => !excluded_by ⟨bytesOf "internal/", 0⟩ c.2)).map
        (fun c => di_entry c.2.loc c.2.self c.2.binding c.2.iseq c.2.klass
          ((scenario.length : Int) - (c.1 : Int))) ∧
      (∀ i f, (i, f) ∈ candidates scenario ↔ 1 ≤ i ∧ scenario[i]? = some f) ∧
      (∀ f, excluded_by ⟨bytesOf "internal/", 0⟩ f = true ↔
        ∃ q p, f.iseq = some q ∧ q.realpath = some p ∧ bytesOf "internal/" <+: p.bytes) ∧
      (∀ e ∈ r, ∀ q p, e.iseq = some q → q.realpath = some p →
        ¬ bytesOf "internal/" <+: p.bytes) ∧
      (∀ (i : Nat) (f : RawFrame), 1 ≤ i → scenario[i]? = some f →
        (f.iseq = none ∨ ∃ q, f.iseq = some q ∧ q.realpath = none) →
        di_entry f.loc f.self f.binding f.iseq f.klass
          ((scenario.length : Int) - (i : Int)) ∈ r) :=
  ⟨rfl, capture_frames_filter sameEnc scenario .nil (.str ⟨bytesOf "internal/", 0⟩)
    ⟨bytesOf "internal/", 0⟩ rfl (scenario_sameEnc _)⟩

/-- C3: filtering never changes depth. For a prefix that converts to the
string `s` and is encoding-compatible with every frame path, the result of
`capture_frames` with the prefix is an order-preserving sublist of the result
with no prefix; every record it returns is the record of some raw frame of
index `i`, has depth exactly `N - i`, and is the very record the unfiltered
capture holds at its index `i - 1`. -/
theorem capture_frames_depth_stable (compat : RString → RString → Bool) (dc : Inspector)
    (self pfx : Value) (s : RString) (hs : StringValue pfx = .ok s)
    (hc : ∀ f ∈ dc, ∀ q p, f.iseq = some q → q.realpath = some p → compat p s = true) :
    ∃ r r0 : List FrameInfo,
      capture_frames compat dc self pfx = .ok r ∧
      capture_frames compat dc self .nil = .ok r0 ∧
      r.Sublist r0 ∧
      (∀ e ∈ r, ∃ (i : Nat) (f : RawFrame), 1 ≤ i ∧ dc[i]? = some f ∧
        e = di_entry f.loc f.self f.binding f.iseq f.klass ((dc.length : Int) - (i : Int)) ∧
        e.frame_depth = (dc.length : Int) - (i : Int) ∧
        r0[i - 1]? = some e) := by
  have hc' : ∀ f ∈ dc.drop 1, ∀ p, frame_path f = some p → compat p s = true := by
    intro f hf p hp
    obtain ⟨q, hq, hqp⟩ := (frame_path_eq_some f p).mp hp
    exact hc f (List.mem_of_mem_drop hf) q p hq hqp
  refine ⟨_, _, di_body_of_compat compat dc pfx s hs hc', di_body_nil compat dc, ?_, ?_⟩
  · exact (List.filter_sublist _).map _
  · intro e he
    rw [List.mem_map] at he
    obtain ⟨⟨i, f⟩, hcm, rfl⟩ := he
    have hm := (List.mem_filter.mp hcm).1
    obtain ⟨hi, hf⟩ := (mem_candidates dc i f).mp hm
    refine ⟨i, f, hi, hf, rfl, rfl, ?_⟩
    rw [List.getElem?_map, candidates_getElem?]
    have : i - 1 + 1 = i := by omega
    rw [this, hf]
    rfl

/-- Witness of C3: raw frames `[entry, A, B, C]` with the path of `A`
`"internal/debugger.lib"` and the prefix `"internal/"` yield `[B, C]` with
depths 2 and 1. -/
theorem capture_frames_depth_stable_witness :
    capture_frames sameEnc scenario .nil (.str ⟨bytesOf "internal/", 0⟩) =
      .ok [entry_at 4 2 (mkFrame 2 (some "/app/main")),
           entry_at 4 3 (mkFrame 3 (some "/app/util"))] ∧
    (entry_at 4 2 (mkFrame 2 (some "/app/main"))).frame_depth = 2 ∧
    (entry_at 4 3 (mkFrame 3 (some "/app/util"))).frame_depth = 1 ∧
    ∃ r r0 : List FrameInfo,
      capture_frames sameEnc scenario .nil (.str ⟨bytesOf "internal/", 0⟩) = .ok r ∧
      capture_frames sameEnc scenario .nil .nil = .ok r0 ∧
      r.Sublist r0 ∧
      (∀ e ∈ r, ∃ (i : Nat) (f : RawFrame), 1 ≤ i ∧ scenario[i]? = some f ∧
        e = di_entry f.loc f.self f.binding f.iseq f.klass
          ((scenario.length : Int) - (i : Int)) ∧
        e.frame_depth = (scenario.length : Int) - (i : Int) ∧
        r0[i - 1]? = some e) :=
  ⟨by unfold capture_frames; rw [di_body_eq_walk]; decide, by decide, by decide,
    capture_frames_depth_stable sameEnc scenario .nil (.str ⟨bytesOf "internal/", 0⟩)
      ⟨bytesOf "internal/", 0⟩ rfl (scenario_sameEnc _)⟩

/-- C4, as the code has it: the records of one `capture_frames` result are in
raw order (a sublist of the raw frames of index 1 and later, so a greater
index is nearer to program entry), the record of raw frame 1, the frame
around the capture call, is at index 0 whenever it is in the result, every
depth is at least 1, and the depth values strictly decrease with the index. -/
theorem capture_frames_order (compat : RString → RString → Bool) (dc : Inspector)
    (self pfx : Value) (r : List FrameInfo)
    (h : capture_frames compat dc self pfx = .ok r) :
    (∃ l : List (Nat × RawFrame), l.Sublist (candidates dc) ∧
      r = l.map (fun c => di_entry c.2.loc c.2.self c.2.binding c.2.iseq c.2.klass
        ((dc.length : Int) - (c.1 : Int)))) ∧
    (∀ f, dc[1]? = some f →
      di_entry f.loc f.self f.binding f.iseq f.klass ((dc.length : Int) - 1) ∈ r →
      r[0]? = some (di_entry f.loc f.self f.binding f.iseq f.klass ((dc.length : Int) - 1))) ∧
    (∀ e ∈ r, 1 ≤ e.frame_depth) ∧
    r.Pairwise (fun a b => a.frame_depth > b.frame_depth) := by
  unfold capture_frames at h
  rw [di_body_eq_walk] at h
  obtain ⟨l, hl, hr⟩ := walk_sublist compat pfx dc.length (dc.drop 1) 1 [] r h
  rw [List.nil_append] at hr
  have hl' : l.Sublist (candidates dc) := hl
  have hpw : l.Pairwise (fun a b => a.1 < b.1) := (candidates_pairwise dc).sublist hl'
  have hb : ∀ c ∈ l, 1 ≤ c.1 ∧ c.1 < dc.length :=
    fun c hc => candidates_bounds dc c (hl'.subset hc)
  subst hr
  refine ⟨⟨l, hl', rfl⟩, ?_, ?_, ?_⟩
  · intro f _ hmem
    rw [List.mem_map] at hmem
    obtain ⟨c, hcl, hce⟩ := hmem
    have hc1 : c.1 = 1 := by
      have := congrArg FrameInfo.frame_depth hce
      simp only [entry_at, di_entry] at this
      omega
    cases l with
    | nil => cases hcl
    | cons a l' =>
      have ha : a = c := by
        rcases List.mem_cons.mp hcl with rfl | hcl'
        · rfl
        · have h1 := (List.pairwise_cons.mp hpw).1 c hcl'
          have h2 := (hb a (List.mem_cons_self _ _)).1
          omega
      subst ha
      simp only [List.map_cons, List.getElem?_cons_zero]
      rw [← hce]
  · intro e he
    rw [List.mem_map] at he
    obtain ⟨c, hcl, rfl⟩ := he
    have := hb c hcl
    simp only [entry_at, di_entry]
    omega
  · rw [List.pairwise_map]
    refine hpw.imp ?_
    intro a b hab
    simp only [entry_at, di_entry, gt_iff_lt]
    omega

/-- Witness of C4 as amended: the scenario with the prefix `"internal/"`. -/
theorem capture_frames_order_witness :
    capture_frames sameEnc scenario .nil (.str ⟨bytesOf "internal/", 0⟩) =
      .ok [entry_at 4 2 (mkFrame 2 (some "/app/main")),
           entry_at 4 3 (mkFrame 3 (some "/app/util"))] ∧
    [entry_at 4 2 (mkFrame 2 (some "/app/main")),
      entry_at 4 3 (mkFrame 3 (some "/app/util"))].Pairwise
        (fun a b => a.frame_depth > b.frame_depth) :=
  ⟨by unfold capture_frames; rw [di_body_eq_walk]; decide,
    (capture_frames_order sameEnc scenario .nil (.str ⟨bytesOf "internal/", 0⟩) _
      (by unfold capture_frames; rw [di_body_eq_walk]; decide)).2.2.2⟩

/-- Counterexample to C4 as stated: on the scenario with no prefix the depths
of the result are 3, 2, 1 by increasing index; they do not increase. -/
theorem capture_frames_depth_not_increasing :
    ∃ r : List FrameInfo,
      capture_frames sameEnc scenario .nil .nil = .ok r ∧
      r.map (fun e => e.frame_depth) = [3, 2, 1] ∧
      ¬ r.Pairwise (fun a b => a.frame_depth < b.frame_depth) := by
  refine ⟨[entry_at 4 1 (mkFrame 1 (some "internal/debugger.lib")),
    entry_at 4 2 (mkFrame 2 (some "/app/main")),
    entry_at 4 3 (mkFrame 3 (some "/app/util"))], ?_, by decide, by decide⟩
  unfold capture_frames
  rw [di_body_eq_walk]
  decide

/-- C5, as the code has it: an empty exclusion prefix matches every path. For
a prefix that converts to an empty string compatible with every frame path,
`capture_frames` returns the records of exactly the raw frames of index at
least 1 that have no code unit or whose code unit has no real path, and every
frame whose code unit has a real path is left out; the result equals the one
with no prefix only when no raw frame of index at least 1 has a code unit
with a real path. -/
theorem capture_frames_empty_string (compat : RString → RString → Bool) (dc : Inspector)
    (self pfx : Value) (s : RString) (hs : StringValue pfx = .ok s) (he : s.bytes = [])
    (hc : ∀ f ∈ dc, ∀ q p, f.iseq = some q → q.realpath = some p → compat p s = true) :
    capture_frames compat dc self pfx =
      .ok (((candidates dc).filter (fun c => (frame_path c.2).isNone)).map
        (fun c => di_entry c.2.loc c.2.self c.2.binding c.2.iseq c.2.klass
          ((dc.length : Int) - (c.1 : Int)))) ∧
    (capture_frames compat dc self pfx = capture_frames compat dc self .nil ↔
      ∀ (i : Nat) (f : RawFrame), 1 ≤ i → dc[i]? = some f →
        ∀ q, f.iseq = some q → q.realpath = none) := by
  have hc' : ∀ f ∈ dc.drop 1, ∀ p, frame_path f = some p → compat p s = true := by
    intro f hf p hp
    obtain ⟨q, hq, hqp⟩ := (frame_path_eq_some f p).mp hp
    exact hc f (List.mem_of_mem_drop hf) q p hq hqp
  have hex : ∀ f, (!excluded_by s f) = (frame_path f).isNone := by
    intro f
    unfold excluded_by
    cases frame_path f <;> simp [he]
  have h1 : capture_frames compat dc self pfx =
      .ok (((candidates dc).filter (fun c => (frame_path c.2).isNone)).map
        (fun c => entry_at dc.length c.1 c.2)) := by
    unfold capture_frames
    rw [di_body_of_compat compat dc pfx s hs hc']
    simp only [hex]
  refine ⟨h1, ?_⟩
  rw [h1]
  unfold capture_frames
  rw [di_body_nil]
  constructor
  · intro h i f hi hf q hq
    have hlen := congrArg List.length (Except.ok.inj h)
    simp only [List.length_map] at hlen
    have hall := List.filter_length_eq_length.mp hlen
    have := hall (i, f) ((mem_candidates dc i f).mpr ⟨hi, hf⟩)
    cases hqp : q.realpath with
    | none => rfl
    | some p =>
      have hp := (frame_path_eq_some f p).mpr ⟨q, hq, hqp⟩
      simp [hp] at this
  · intro h
    have : (candidates dc).filter (fun c => (frame_path c.2).isNone) = candidates dc := by
      rw [List.filter_eq_self]
      rintro ⟨i, f⟩ hm
      obtain ⟨hi, hf⟩ := (mem_candidates dc i f).mp hm
      cases hp : frame_path f with
      | none => rfl
      | some p =>
        obtain ⟨q, hq, hqp⟩ := (frame_path_eq_some f p).mp hp
        rw [h i f hi hf q hq] at hqp
        cases hqp
    rw [this]

/-- Witness of C5 as amended: the scenario with an empty string prefix. -/
theorem capture_frames_empty_string_witness :
    capture_frames sameEnc scenario .nil (.str ⟨[], 0⟩) =
      .ok (((candidates scenario).filter (fun c => (frame_path c.2).isNone)).map
        (fun c => di_entry c.2.loc c.2.self c.2.binding c.2.iseq c.2.klass
          ((scenario.length : Int) - (c.1 : Int)))) ∧
    ((candidates scenario).filter (fun c => (frame_path c.2).isNone)) = [] :=
  ⟨(capture_frames_empty_string sameEnc scenario .nil (.str ⟨[], 0⟩) ⟨[], 0⟩ rfl rfl
      (scenario_sameEnc _)).1, by decide⟩

/-- Counterexample to C5 as stated: on the scenario the empty string prefix
leaves out all three frames, while no prefix returns all three. -/
theorem capture_frames_empty_string_differs :
    capture_frames sameEnc scenario .nil (.str ⟨[], 0⟩) = .ok [] ∧
    capture_frames sameEnc scenario .nil .nil =
      .ok [entry_at 4 1 (mkFrame 1 (some "internal/debugger.lib")),
           entry_at 4 2 (mkFrame 2 (some "/app/main")),
           entry_at 4 3 (mkFrame 3 (some "/app/util"))] ∧
    capture_frames sameEnc scenario .nil (.str ⟨[], 0⟩) ≠
      capture_frames sameEnc scenario .nil .nil := by
  unfold capture_frames
  rw [di_body_eq_walk, di_body_eq_walk]
  decide

/-! ## Claims about `str_start_with` -/

/-- C6: for strings with compatible encodings `str_start_with` gives 1 (true)
exactly when the candidate is at least as long as the prefix and its first
`len(prefix)` bytes are the bytes of the prefix, and 0 (false) otherwise; it is
true for every candidate when the prefix is empty and false whenever the
prefix is longer than the candidate. -/
theorem str_start_with_iff (compat : RString → RString → Bool) (str pfx : RString)
    (hc : compat str pfx = true) :
    (str_start_with compat str (.str pfx) = .ok 1 ↔
      RSTRING_LEN str ≥ RSTRING_LEN pfx ∧ str.bytes.take (RSTRING_LEN pfx) = pfx.bytes) ∧
    (str_start_with compat str (.str pfx) = .ok 0 ↔
      ¬ (RSTRING_LEN str ≥ RSTRING_LEN pfx ∧
        str.bytes.take (RSTRING_LEN pfx) = pfx.bytes)) ∧
    (pfx.bytes = [] → str_start_with compat str (.str pfx) = .ok 1) ∧
    (RSTRING_LEN pfx > RSTRING_LEN str → str_start_with compat str (.str pfx) = .ok 0) := by
  have h := str_start_with_of_compat compat str pfx (.str pfx) rfl hc
  have hp := take_eq_iff_isPrefix pfx.bytes str.bytes
  simp only [RSTRING_LEN, ge_iff_le, gt_iff_lt]
  rw [h, hp]
  by_cases hpre : pfx.bytes <+: str.bytes
  · simp only [hpre, if_true, true_iff, not_true_eq_false, iff_false]
    refine ⟨trivial, by decide, fun _ => trivial, ?_⟩
    intro hlt
    have := hpre.length_le
    omega
  · simp only [hpre, if_false, not_false_eq_true, iff_true, iff_false]
    refine ⟨by decide, trivial, ?_, fun _ => trivial⟩
    intro hnil
    exact absurd (hnil ▸ List.nil_prefix) hpre

/-- Witness of C6: `"/app/main"` starts with `"/app"`. -/
theorem str_start_with_iff_witness :
    str_start_with sameEnc ⟨bytesOf "/app/main", 0⟩ (.str ⟨bytesOf "/app", 0⟩) = .ok 1 ∧
    RSTRING_LEN ⟨bytesOf "/app/main", 0⟩ ≥ RSTRING_LEN ⟨bytesOf "/app", 0⟩ ∧
    (bytesOf "/app/main").take (RSTRING_LEN ⟨bytesOf "/app", 0⟩) = bytesOf "/app" :=
  ⟨by decide,
    (str_start_with_iff sameEnc ⟨bytesOf "/app/main", 0⟩ ⟨bytesOf "/app", 0⟩ rfl).1.mp
      (by decide)⟩

theorem mem_drop_one_iff (dc : Inspector) (f : RawFrame) :
    f ∈ dc.drop 1 ↔ ∃ i, 1 ≤ i ∧ dc[i]? = some f := by
  rw [List.mem_iff_getElem?]
  constructor
  · rintro ⟨k, hk⟩
    rw [List.getElem?_drop] at hk
    exact ⟨1 + k, by omega, hk⟩
  · rintro ⟨i, hi, hf⟩
    refine ⟨i - 1, ?_⟩
    rw [List.getElem?_drop]
    have : 1 + (i - 1) = i := by omega
    rw [this]
    exact hf

/-- C7: `str_start_with` raises the encoding-compatibility error, and returns
no value, exactly when the candidate and the (converted) prefix have no
compatible encoding, whatever their bytes; `capture_frames` with a prefix that
converts to the string `s` raises that same error, and returns no sequence,
exactly when some raw frame of index at least 1 has a code unit whose real
path is present and encoding-incompatible with `s`, and it raises no other
error. -/
theorem encoding_mismatch_propagates (compat : RString → RString → Bool) (dc : Inspector)
    (self pfx : Value) (s str : RString) (hs : StringValue pfx = .ok s) :
    (str_start_with compat str pfx = .error .encCompatError ↔ compat str s = false) ∧
    (compat str s = false → ∀ v, str_start_with compat str pfx ≠ .ok v) ∧
    (capture_frames compat dc self pfx = .error .encCompatError ↔
      ∃ (i : Nat) (f : RawFrame) (q : ISeq) (p : RString),
        1 ≤ i ∧ dc[i]? = some f ∧ f.iseq = some q ∧ q.realpath = some p ∧
          compat p s = false) ∧
    (∀ e, capture_frames compat dc self pfx = .error e → e = .encCompatError) ∧
    ((∃ r, capture_frames compat dc self pfx = .ok r) ∨
      capture_frames compat dc self pfx = .error .encCompatError) := by
  have hA : str_start_with compat str pfx = .error .encCompatError ↔ compat str s = false := by
    cases hc : compat str s with
    | true => rw [str_start_with_of_compat compat str s pfx hs hc]; simp
    | false => rw [str_start_with_of_incompat compat str s pfx hs hc]; simp
  have hE : ∀ e, capture_frames compat dc self pfx = .error e → e = .encCompatError := by
    intro e he
    unfold capture_frames at he
    rw [di_body_eq_walk] at he
    obtain ⟨f, _, hfe⟩ := walk_error_mem compat pfx dc.length e _ _ _ he
    exact ((skip_test_error_iff compat pfx s f hs e).mp hfe).1
  refine ⟨hA, ?_, ?_, hE, ?_⟩
  · intro hc v hv
    rw [hA.mpr hc] at hv
    cases hv
  · constructor
    · intro he
      unfold capture_frames at he
      rw [di_body_eq_walk] at he
      obtain ⟨f, hf, hfe⟩ := walk_error_mem compat pfx dc.length _ _ _ _ he
      obtain ⟨_, p, hp, hcp⟩ := (skip_test_error_iff compat pfx s f hs _).mp hfe
      obtain ⟨q, hq, hqp⟩ := (frame_path_eq_some f p).mp hp
      obtain ⟨i, hi, hif⟩ := (mem_drop_one_iff dc f).mp hf
      exact ⟨i, f, q, p, hi, hif, hq, hqp, hcp⟩
    · rintro ⟨i, f, q, p, hi, hif, hq, hqp, hcp⟩
      have hf : f ∈ dc.drop 1 := (mem_drop_one_iff dc f).mpr ⟨i, hi, hif⟩
      have hp : frame_path f = some p := (frame_path_eq_some f p).mpr ⟨q, hq, hqp⟩
      have hfe := skip_test_of_incompat compat pfx s f p hs hp hcp
      cases hw : capture_frames compat dc self pfx with
      | error e => rw [hE e hw]
      | ok r =>
        unfold capture_frames at hw
        rw [di_body_eq_walk] at hw
        obtain ⟨b, hb⟩ := walk_ok_all compat pfx dc.length _ _ _ r hw f hf
        rw [hfe] at hb
        cases hb
  · cases hw : capture_frames compat dc self pfx with
    | error e => right; rw [hE e hw]
    | ok r => left; exact ⟨r, rfl⟩

/-- Witness of C7: the scenario with a prefix of another encoding. -/
theorem encoding_mismatch_propagates_witness :
    StringValue (.str ⟨bytesOf "internal/", 1⟩) = .ok ⟨bytesOf "internal/", 1⟩ ∧
    str_start_with sameEnc ⟨bytesOf "/app/main", 0⟩ (.str ⟨bytesOf "internal/", 1⟩) =
      .error .encCompatError ∧
    capture_frames sameEnc scenario .nil (.str ⟨bytesOf "internal/", 1⟩) =
      .error .encCompatError :=
  ⟨rfl,
    (encoding_mismatch_propagates sameEnc scenario .nil (.str ⟨bytesOf "internal/", 1⟩)
      ⟨bytesOf "internal/", 1⟩ ⟨bytesOf "/app/main", 0⟩ rfl).1.mpr (by decide),
    (encoding_mismatch_propagates sameEnc scenario .nil (.str ⟨bytesOf "internal/", 1⟩)
      ⟨bytesOf "internal/", 1⟩ ⟨bytesOf "/app/main", 0⟩ rfl).2.2.1.mpr
      ⟨1, mkFrame 1 (some "internal/debugger.lib"),
        ⟨1, some ⟨bytesOf "internal/debugger.lib", 0⟩⟩, ⟨bytesOf "internal/debugger.lib", 0⟩,
        by decide, by decide, by decide, rfl, by decide⟩⟩

/-! ## Claims about the tracker, the depth probe and the parameter symbols -/

theorem run_tracker_eq (events : List TracePoint) :
    ∀ log : List Funcall, run_tracker events log =
      log ++ (events.filter (fun tp => decide (tp.callee_id = Value.sym "method_added" ∨
          tp.callee_id = Value.sym "singleton_method_added"))).map
        (fun tp => { recv := "DEBUGGER__", mid := "method_added", args := [tp] }) := by
  induction events with
  | nil => intro log; simp [run_tracker]
  | cons tp tps ih =>
    intro log
    have hstep : run_tracker (tp :: tps) log = run_tracker tps (method_added_tracker tp log) :=
      rfl
    rw [hstep, ih]
    by_cases h : tp.callee_id = Value.sym "method_added" ∨
        tp.callee_id = Value.sym "singleton_method_added"
    · simp [method_added_tracker, rb_funcallv, h, List.filter_cons]
    · simp [method_added_tracker, h, List.filter_cons]

/-- C8: for every finite sequence of call events run through
`method_added_tracker`, `DEBUGGER__.method_added` is called exactly once for
each event whose callee id is `method_added` or `singleton_method_added`, in
event order and with that event as its single argument, and is not called for
any other event (the hook then changes nothing); of the ten events of
`ten_events`, two of which are `method_added`, exactly those two are
forwarded. -/
theorem method_added_tracker_forwards (events : List TracePoint) (log : List Funcall) :
    run_tracker events log =
      log ++ (events.filter (fun tp => decide (tp.callee_id = Value.sym "method_added" ∨
          tp.callee_id = Value.sym "singleton_method_added"))).map
        (fun tp => { recv := "DEBUGGER__", mid := "method_added", args := [tp] }) ∧
    (run_tracker events log).length =
      log.length + events.countP (fun tp => decide (tp.callee_id = Value.sym "method_added" ∨
          tp.callee_id = Value.sym "singleton_method_added")) ∧
    (∀ tp : TracePoint, ¬ (tp.callee_id = Value.sym "method_added" ∨
        tp.callee_id = Value.sym "singleton_method_added") →
      method_added_tracker tp log = log) ∧
    (∀ tp : TracePoint, (tp.callee_id = Value.sym "method_added" ∨
        tp.callee_id = Value.sym "singleton_method_added") →
      method_added_tracker tp log =
        log ++ [{ recv := "DEBUGGER__", mid := "method_added", args := [tp] }]) ∧
    ten_events.length = 10 ∧
    run_tracker ten_events [] =
      [{ recv := "DEBUGGER__", mid := "method_added", args := [⟨3, .sym "method_added"⟩] },
       { recv := "DEBUGGER__", mid := "method_added", args := [⟨7, .sym "method_added"⟩] }] := by
  refine ⟨run_tracker_eq events log, ?_, ?_, ?_, by decide, by decide⟩
  · rw [run_tracker_eq, List.length_append, List.length_map, List.countP_eq_length_filter]
  · intro tp h
    simp [method_added_tracker, h]
  · intro tp h
    simp [method_added_tracker, rb_funcallv, h]

theorem params_loop_eq (params : List (List Value)) :
    ∀ (n i : Nat) (ary : List Value), params.length - i = n →
      params_loop params i ary = ary ++ (params.drop i).filterMap (fun e =>
        match e with
        | [_, s] => if s ≠ sym_ast ∧ s ≠ sym_astast ∧ s ≠ sym_amp then some s else none
        | _ => none) := by
  intro n
  induction n with
  | zero =>
    intro i ary h
    have hi : params.length ≤ i := by omega
    rw [params_loop, if_neg (by omega), List.drop_eq_nil_of_le hi]
    simp
  | succ n ih =>
    intro i ary h
    have hi : i < params.length := by omega
    rw [params_loop, if_pos hi, List.drop_eq_getElem_cons hi, List.filterMap_cons]
    have hg : params.getD i [] = params[i] := by
      simp [List.getD, List.getElem?_eq_getElem hi]
    simp only [hg]
    rcases hp : params[i] with _ | ⟨a, _ | ⟨b, _ | ⟨c, t⟩⟩⟩
    · simp [ih (i + 1) ary (by omega)]
    · simp [ih (i + 1) ary (by omega)]
    · by_cases hb : b ≠ sym_ast ∧ b ≠ sym_astast ∧ b ≠ sym_amp
      · simp [hb, ih (i + 1) _ (by omega)]
      · simp [hb, ih (i + 1) _ (by omega)]
    · simp [ih (i + 1) ary (by omega)]

/-- C10: `iseq_parameters_symbols` returns, in the original order and without
deduplication, the second element of exactly the entries of length 2 whose
second element is none of the symbols `*`, `**` and `&`; entries of any other
length contribute nothing, so the result is never longer than the parameter
list. -/
theorem iseq_parameters_symbols_spec (params : List (List Value)) :
    iseq_parameters_symbols params = params.filterMap (fun e =>
      match e with
      | [_, s] => if s ≠ sym_ast ∧ s ≠ sym_astast ∧ s ≠ sym_amp then some s else none
      | _ => none) ∧
    (iseq_parameters_symbols params).length ≤ params.length ∧
    iseq_parameters_symbols
      [[.sym "req", .sym "a"], [.sym "opt", .sym "a"], [.sym "req"], [.sym "rest", .sym "*"],
       [.sym "key", .sym "k"], [.sym "keyrest", .sym "**"], [.sym "block", .sym "&"],
       [.sym "block", .sym "blk"]] = [.sym "a", .sym "a", .sym "k", .sym "blk"] := by
  have h : ∀ ps : List (List Value), iseq_parameters_symbols ps = ps.filterMap (fun e =>
      match e with
      | [_, s] => if s ≠ sym_ast ∧ s ≠ sym_astast ∧ s ≠ sym_amp then some s else none
      | _ => none) := by
    intro ps
    unfold iseq_parameters_symbols
    rw [params_loop_eq ps ps.length 0 [] rfl]
    simp
  refine ⟨h params, ?_, ?_⟩
  · rw [h]
    exact List.length_filterMap_le _ _
  · rw [h]
    decide

end Debug
